import Mathlib

/-!
Shallow embedding of `crates/ide/src/inlay_hints.rs` (rust-analyzer inlay
hints engine): the hint-selection and suppression engine that walks a parsed
syntax tree and produces an ordered list of inlay hints (type hints,
parameter hints, chaining hints).

Strings are modelled as `List Char` (Rust `String`/`&str`/`SmolStr`).
External collaborators (the `hir` semantic model, the `syntax` tree library)
are modelled at their interface boundary: types, crates, callables and
syntax nodes are values carrying the results of the semantic queries the
engine performs on them.
-/

namespace InlayHints

/-- Rust strings (`String`, `&str`, `SmolStr`) as lists of characters. -/
abbrev Str := List Char

/-- Source `InlayHintsConfig` from the source: per-request configuration. -/
structure InlayHintsConfig where
  type_hints : Bool
  parameter_hints : Bool
  chaining_hints : Bool
  max_length : Option Nat
deriving DecidableEq

/-- Source `InlayKind` from the source. -/
inductive InlayKind where
  | TypeHint
  | ParameterHint
  | ChainingHint
deriving DecidableEq

/-- Source `syntax::TextRange`: a half-open span of text offsets. -/
structure TextRange where
  start : Nat
  stop : Nat
deriving DecidableEq

/-- Source `InlayHint` from the source: `{ range, kind, label }`. -/
structure InlayHint where
  range : TextRange
  kind : InlayKind
  label : Str
deriving DecidableEq

/-! ## Semantic-model interface (`hir`, modelled at the boundary) -/

/-- Source `hir::Visibility`, only the `Public` case is distinguished. -/
inductive VisM where
  | public
  | other
deriving DecidableEq

/-- An item of a trait: only type aliases (with their name) are relevant
(`hir::AssocItem::TypeAlias`). -/
inductive AssocItemM where
  | typeAlias (name : Str)
  | otherItem
deriving DecidableEq

/-- A trait as seen through the semantic model (`iter_trait` in
`hint_iterator`): its associated items. -/
structure TraitM where
  items : List AssocItemM
deriving DecidableEq

/-- The `core::iter` module as seen through `FamousDefs`: the visibility it
assigns to the `Iterator` trait (`visibility_of`). -/
structure ModM where
  visibilityOfIterator : Option VisM
deriving DecidableEq

/-- A crate (`hir::Crate`): its declaration name and the `FamousDefs`
lookups `core_iter_Iterator()` and `core_iter()` resolved against it. -/
structure KrateM where
  declarationName : Option Str
  coreIterIterator : Option TraitM
  coreIterMod : Option ModM
deriving DecidableEq

/-- Source `hir::Adt`: a struct (with its fields, only emptiness is ever queried),
an enum (with its variant names), or a union; each knows its crate
(`Adt::krate` can fail, hence `Option`). -/
inductive AdtM where
  | struct (name : Str) (fields : List Unit) (krate : Option KrateM)
  | enum (name : Str) (variants : List Str) (krate : Option KrateM)
  | union (name : Str) (krate : Option KrateM)
deriving DecidableEq

/-- Source `Adt::krate`. -/
def AdtM.krate : AdtM → Option KrateM
  | .struct _ _ k => k
  | .enum _ _ k => k
  | .union _ k => k

/-- Source `ast::Pat`, as it occurs among a callable's parameter sources: an
identifier pattern (whose `name()` accessor can fail) or any other pattern
shape. -/
inductive PatM where
  | identPat (name : Option Str)
  | otherPat
deriving DecidableEq

/-- One entry of `Callable::params`: `Either<SelfParam, ast::Pat>`; the
self parameter is carried as its rendered text (`self_param.to_string()`). -/
inductive ParamSrcM where
  | selfParam (text : Str)
  | pat (p : PatM)
deriving DecidableEq

/-- Source `hir::CallableKind`; a function carries its name
(`it.name(db).to_string()`). -/
inductive CallableKindM where
  | function (name : Str)
  | tupleStruct
  | tupleEnumVariant
  | closure
deriving DecidableEq

/-- Source `hir::Callable`: its parameter sources in declaration order (each may be
absent — `Option` — exactly as `Callable::params` yields them; the type
component of each pair is unused by the engine and omitted), its kind, and
`n_params()`. -/
structure CallableM where
  params : List (Option ParamSrcM)
  kind : CallableKindM
  nParams : Nat
deriving DecidableEq

/-- Source `hir::Type`, modelled by the answers it gives to the queries the engine
performs: `is_unknown()`, `is_unit()`, `as_adt()`, `remove_ref()`,
`display_truncated(db, max_length)` (a function of the optional budget),
`as_callable(db)`, `impls_trait(db, core_iter_Iterator, [])`, and
`normalize_trait_assoc_type(db, Iterator, [], Item)`. -/
inductive TyM where
  | mk (isUnknown : Bool) (isUnit : Bool) (asAdt : Option AdtM)
       (removeRef : Option TyM) (display : Option Nat → Str)
       (asCallable : Option CallableM) (implsIterator : Bool)
       (iterItemNormalized : Option TyM)

def TyM.isUnknown : TyM → Bool
  | .mk u _ _ _ _ _ _ _ => u

def TyM.isUnit : TyM → Bool
  | .mk _ v _ _ _ _ _ _ => v

def TyM.asAdt : TyM → Option AdtM
  | .mk _ _ a _ _ _ _ _ => a

def TyM.removeRef : TyM → Option TyM
  | .mk _ _ _ r _ _ _ _ => r

def TyM.display : TyM → Option Nat → Str
  | .mk _ _ _ _ d _ _ _ => d

def TyM.asCallable : TyM → Option CallableM
  | .mk _ _ _ _ _ c _ _ => c

def TyM.implsIterator : TyM → Bool
  | .mk _ _ _ _ _ _ i _ => i

def TyM.iterItemNormalized : TyM → Option TyM
  | .mk _ _ _ _ _ _ _ n => n

/-- Source `std::iter::successors(Some(ty), |ty| ty.remove_ref()).last()`: strip
every reference layer. -/
def TyM.stripRefs (t : TyM) : TyM :=
  match t with
  | .mk _ _ _ (some inner) _ _ _ _ => inner.stripRefs
  | _ => t

/-- An argument expression (`ast::Expr`) at a call site, as the parameter
detector inspects it: its text range, its source text (`to_string()`), its
shape (method call with a `name_ref()`, reference expression with an inner
expression, or anything else), and its static type (`sema.type_of_expr`). -/
inductive Arg where
  | methodCall (range : TextRange) (text : Str) (nameRef : Option Str)
      (ty : Option TyM)
  | refExpr (range : TextRange) (text : Str) (inner : Option Arg)
      (ty : Option TyM)
  | otherArg (range : TextRange) (text : Str) (ty : Option TyM)

def Arg.range : Arg → TextRange
  | .methodCall r _ _ _ => r
  | .refExpr r _ _ _ => r
  | .otherArg r _ _ => r

def Arg.ty : Arg → Option TyM
  | .methodCall _ _ _ t => t
  | .refExpr _ _ _ t => t
  | .otherArg _ _ t => t

/-! ## Syntax-tree interface -/

/-- The token kinds the chaining detector distinguishes
(`SyntaxKind::WHITESPACE`, `SyntaxKind::COMMENT`, `T![.]`, anything else). -/
inductive TokenKind where
  | whitespace
  | comment
  | dot
  | otherTok
deriving DecidableEq

/-- A raw token with its kind and text. -/
structure Token where
  kind : TokenKind
  text : Str
deriving DecidableEq

/-- The syntax-node shapes the engine dispatches on.  Every shape that
`ast::Expr::cast` accepts but the engine treats generically is `otherExpr`;
every other shape is `otherNode`. -/
inductive NKind where
  | recordExpr
  | pathExpr
  | callExpr
  | methodCallExpr
  | ifExpr
  | whileExpr
  | forExpr
  | otherExpr
  | identPat
  | letStmt
  | param
  | matchArm
  | otherNode
deriving DecidableEq

/-- The data of one syntax node, together with the answers to every syntax
accessor and semantic query the engine performs on it. -/
structure NodeData where
  range : TextRange
  kind : NKind
  /-- tokens among `expr.syntax().siblings_with_tokens(Direction::Next)` -/
  followTokens : List Token := []
  /-- Models `sema.type_of_expr(self)` when this node is an expression -/
  exprTy : Option TyM := none
  /-- Models `sema.type_of_pat(self)` when this node is an `IdentPat` -/
  patTy : Option TyM := none
  /-- Models `bind_pat.to_string()` -/
  patText : Str := []
  /-- Models `expr.arg_list()` (with its `args()`) for call / method-call nodes -/
  argList : Option (List Arg) := none
  /-- for a `CallExpr`: `expr.expr()` (the callee expression, which may be
  absent) and, when present, `sema.type_of_expr` of it -/
  calleeTy : Option (Option TyM) := none
  /-- Models `sema.resolve_method_call_as_callable(expr)` for a `MethodCallExpr` -/
  methodCallable : Option CallableM := none
  /-- Models `it.ty().is_some()` for `LetStmt` / `Param` ancestors -/
  hasTy : Bool := false
  /-- Models `it.condition().and_then(|c| c.pat()).is_some()` for `IfExpr` /
  `WhileExpr` ancestors -/
  condPat : Bool := false
  /-- Models `it.in_token().is_some()` for a `ForExpr` ancestor -/
  hasInToken : Bool := false
  /-- for a `ForExpr` ancestor: `it.iterable()` (which may be absent) and,
  when present, `sema.type_of_expr` of it -/
  iterableTy : Option (Option TyM) := none

/-- A syntax node: its data and its children in document order. -/
inductive Node where
  | mk (data : NodeData) (children : List Node)

def Node.data : Node → NodeData
  | .mk d _ => d

def Node.children : Node → List Node
  | .mk _ k => k

mutual
/-- Pre-order traversal (`file.syntax().descendants()`): every node of the
subtree rooted at `n` paired with its chain of strict-ancestor data
(nearest first); `anc` is the strict-ancestor chain of `n` itself. -/
def preN (n : Node) (anc : List NodeData) : List (Node × List NodeData) :=
  match n with
  | .mk d kids => (Node.mk d kids, anc) :: preL kids (d :: anc)

/-- Pre-order traversal of a forest of siblings, left to right. -/
def preL (ns : List Node) (anc : List NodeData) : List (Node × List NodeData) :=
  match ns with
  | [] => []
  | k :: ks => preN k anc ++ preL ks anc
end

/-! ## The engine -/

/-- Modelled from the spec: `stdx::to_lower_snake_case` (the `stdx` crate is
not under `src/`); §4.4 calls it the "snake-cased type name".  Lower-cases
every character and inserts an underscore before each uppercase character
other than the first. -/
def toLowerSnakeCase (s : Str) : Str :=
  match s with
  | [] => []
  | c :: cs =>
    c.toLower :: cs.flatMap (fun d => if d.isUpper then ['_', d.toLower] else [d])

/-- Source `get_callable`. -/
def get_callable (expr : NodeData) : Option CallableM :=
  match expr.kind with
  | NKind.callExpr => do
      let callee ← expr.calleeTy
      let ty ← callee
      ty.asCallable
  | NKind.methodCallExpr => expr.methodCallable
  | _ => none

/-- Source `hint_iterator`: checks if the type is an `Iterator` from `core::iter`
and replaces its hint with `impl Iterator<Item = Ty>`.  Each `?`-step of
the source is one `match` with a `none` abort arm; `LABEL_START` and
`LABEL_END` are the constants `"impl Iterator<Item = "` and `">"`, and the
inner item type is rendered with their combined length subtracted
(saturating) from the configured maximum. -/
def hint_iterator (config : InlayHintsConfig) (ty : TyM) : Option Str :=
  match ty.stripRefs.asAdt with
  | none => none
  | some strukt =>
    match strukt.krate with
    | none => none
    | some krate =>
      if krate.declarationName != some ("core".toList) then none
      else
        match krate.coreIterIterator with
        | none => none
        | some iter_trait =>
          match krate.coreIterMod with
          | none => none
          | some iter_mod =>
            match (iter_mod.visibilityOfIterator).filter (fun vis => vis == VisM.public) with
            | none => none
            | some _vis =>
              if ty.implsIterator then
                match iter_trait.items.findSome? (fun item =>
                    match item with
                    | AssocItemM.typeAlias name =>
                      if name == ("Item".toList) then some name else none
                    | _ => none) with
                | none => none
                | some _assoc =>
                  match ty.iterItemNormalized with
                  | some ity =>
                    some (("impl Iterator<Item = ".toList)
                      ++ ity.display (config.max_length.map (fun len =>
                          len - (("impl Iterator<Item = ".toList).length
                            + (">".toList).length)))
                      ++ (">".toList))
                  | none => none
              else none

/-- The token filter at the top of the chaining detector (`tokens` in the
source): the tokens among the expression's following siblings, dropping
whitespace tokens without a line break and all comment tokens. -/
def chainingFilteredTokens (expr : NodeData) : List Token :=
  expr.followTokens.filter (fun t =>
    match t.kind with
    | TokenKind.whitespace => t.text.contains '\n'
    | TokenKind.comment => false
    | _ => true)

/-- Source `get_chaining_hints`, returned as the list of hints it appends to `acc`
(zero or one). -/
def get_chaining_hints (config : InlayHintsConfig) (expr : NodeData) : List InlayHint :=
  if !config.chaining_hints then [] else
  if expr.kind == NKind.recordExpr then [] else
  match chainingFilteredTokens expr with
  | next :: next_next :: _ =>
    if next.kind == TokenKind.whitespace && next_next.kind == TokenKind.dot then
      match expr.exprTy with
      | none => []
      | some ty =>
        if ty.isUnknown then [] else
        if expr.kind == NKind.pathExpr &&
            (match ty.asAdt with
             | some (AdtM.struct _ fields _) => fields.isEmpty
             | _ => false) then []
        else
          [⟨expr.range, InlayKind.ChainingHint,
            (hint_iterator config ty).getD (ty.display config.max_length)⟩]
    else []
  | _ => []

/-- Source `get_string_representation`. -/
def get_string_representation : Arg → Option Str
  | Arg.methodCall _ _ nameRef _ => nameRef
  | Arg.refExpr _ _ none _ => none
  | Arg.refExpr _ _ (some inner) _ => get_string_representation inner
  | Arg.otherArg _ text _ => some text

/-- Source `is_enum_name_similar_to_param_name`. -/
def is_enum_name_similar_to_param_name (argument : Arg) (param_name : Str) : Bool :=
  match argument.ty.bind (fun t => t.asAdt) with
  | some (AdtM.enum name _ _) => toLowerSnakeCase name == param_name
  | _ => false

/-- Source `is_argument_similar_to_param_name`. -/
def is_argument_similar_to_param_name (argument : Arg) (param_name : Str) : Bool :=
  if is_enum_name_similar_to_param_name argument param_name then true
  else
    match get_string_representation argument with
    | none => false
    | some repr =>
      let argument_string := repr.dropWhile (fun c => c == '_')
      param_name.isPrefixOf argument_string || param_name.isSuffixOf argument_string

/-- Source `is_param_name_similar_to_fn_name`: the first-position heuristic (the
function name equals the parameter name, or ends with an underscore followed
by the parameter name). -/
def is_param_name_similar_to_fn_name (param_name : Str) (param_num : Nat)
    (fn_name : Option Str) : Bool :=
  match param_num, fn_name with
  | 0, some function =>
    function == param_name
      || (decide (param_name.length < function.length)
          && ((function.take (function.length - param_name.length)).getLast? == some '_')
          && param_name.isSuffixOf function)
  | _, _ => false

/-- Source `is_obvious_param`. -/
def is_obvious_param (param_name : Str) : Bool :=
  let is_obvious_param_name :=
    param_name == ("predicate".toList) || param_name == ("value".toList)
      || param_name == ("pat".toList) || param_name == ("rhs".toList)
      || param_name == ("other".toList)
  param_name.length == 1 || is_obvious_param_name

/-- The `fn_name` computation in `should_show_param_name_hint`: a function
callee's name; tuple constructors, tuple enum variants and closures are
nameless. -/
def fnNameOf (callable : CallableM) : Option Str :=
  match callable.kind with
  | CallableKindM.function it => some it
  | _ => none

/-- Source `should_show_param_name_hint`. -/
def should_show_param_name_hint (callable : CallableM) (param_name0 : Str)
    (param_num : Nat) (argument : Arg) : Bool :=
  let param_name := param_name0.dropWhile (fun c => c == '_')
  let fn_name : Option Str := fnNameOf callable
  if param_name.isEmpty
      || some param_name == fn_name.map (fun s => s.dropWhile (fun c => c == '_'))
      || is_argument_similar_to_param_name argument param_name
      || is_param_name_similar_to_fn_name param_name param_num fn_name
      || ("ra_fixture".toList).isPrefixOf param_name
  then false
  else !(callable.nParams == 1 && is_obvious_param param_name)

/-- The body of the `filter_map` in `get_param_name_hints`: extract the
plain-identifier name of a parameter source (a `self` parameter renders as
its text; an `IdentPat` yields its `name()`; anything else is skipped). -/
def paramSrcName : Option ParamSrcM → Option Str
  | none => none
  | some (ParamSrcM.selfParam s) => some s
  | some (ParamSrcM.pat (PatM.identPat n)) => n
  | some (ParamSrcM.pat PatM.otherPat) => none

/-- The parameter-hint pipeline of `get_param_name_hints` once the argument
list and the callable have been resolved: zip the declared parameters with
the supplied arguments positionally, keep the pairs whose parameter has a
plain-identifier name, enumerate the survivors, filter by the suppression
heuristics, and render one hint per surviving pair. -/
def param_hints_core (callable : CallableM) (args : List Arg) : List InlayHint :=
  ((((callable.params.zip args).filterMap (fun pa =>
        match paramSrcName pa.1 with
        | none => none
        | some param_name => some (param_name, pa.2))).enum.filter
      (fun x => should_show_param_name_hint callable x.2.1 x.1 x.2.2)).map
    (fun x => (⟨x.2.2.range, InlayKind.ParameterHint, x.2.1⟩ : InlayHint)))

/-- The `args` extraction at the top of `get_param_name_hints`:
`expr.arg_list()?.args()` for call and method-call expressions. -/
def argsOf (expr : NodeData) : Option (List Arg) :=
  match expr.kind with
  | NKind.callExpr => expr.argList
  | NKind.methodCallExpr => expr.argList
  | _ => none

/-- Source `get_param_name_hints`, returned as the list of hints it appends. -/
def get_param_name_hints (config : InlayHintsConfig) (expr : NodeData) : List InlayHint :=
  if !config.parameter_hints then [] else
  match argsOf expr with
  | none => []
  | some args =>
    match get_callable expr with
    | none => []
    | some callable => param_hints_core callable args

/-- Source `pat_is_enum_variant`; `bind_pat_text` is `bind_pat.to_string()`. -/
def pat_is_enum_variant (bind_pat_text : Str) (pat_ty : TyM) : Bool :=
  match pat_ty.asAdt with
  | some (AdtM.enum _ variants _) =>
    variants.any (fun enum_name => enum_name == bind_pat_text)
  | _ => false

/-- One step of the ancestor walk in `should_not_display_type_hint`: the
`match_ast!` arm applying to ancestor `node`; `some b` models an early
`return b`, `none` the fall-through to the next ancestor. -/
def ancestorVerdict (bind_pat_text : Str) (pat_ty : TyM) (node : NodeData) : Option Bool :=
  match node.kind with
  | NKind.letStmt => some node.hasTy
  | NKind.param => some node.hasTy
  | NKind.matchArm => some (pat_is_enum_variant bind_pat_text pat_ty)
  | NKind.ifExpr => some (node.condPat && pat_is_enum_variant bind_pat_text pat_ty)
  | NKind.whileExpr => some (node.condPat && pat_is_enum_variant bind_pat_text pat_ty)
  | NKind.forExpr =>
    some (!node.hasInToken
      || (((node.iterableTy.bind (fun t => t)).map
            (fun iterable_ty => iterable_ty.isUnknown || iterable_ty.isUnit)).getD true))
  | _ => none

/-- The ancestor loop of `should_not_display_type_hint`
(`for node in bind_pat.syntax().ancestors()`): the first applicable arm
returns; falling off the end yields `false`. -/
def ancestorLoop (bind_pat_text : Str) (pat_ty : TyM) : List NodeData → Bool
  | [] => false
  | node :: rest =>
    match ancestorVerdict bind_pat_text pat_ty node with
    | some b => b
    | none => ancestorLoop bind_pat_text pat_ty rest

/-- The zero-field-struct check at the top of
`should_not_display_type_hint`: the bound type is a struct with no fields
whose name equals the binding's text. -/
def zeroFieldStructNameEq (bind_pat_text : Str) (pat_ty : TyM) : Bool :=
  match pat_ty.asAdt with
  | some (AdtM.struct name fields _) => fields.isEmpty && name == bind_pat_text
  | _ => false

/-- Source `should_not_display_type_hint`; `ancestors` is
`bind_pat.syntax().ancestors()` (the binding itself first, then its parent
chain). -/
def should_not_display_type_hint (bind_pat_text : Str) (pat_ty : TyM)
    (ancestors : List NodeData) : Bool :=
  if pat_ty.isUnknown then true
  else if zeroFieldStructNameEq bind_pat_text pat_ty then true
  else ancestorLoop bind_pat_text pat_ty ancestors

/-- Source `get_bind_pat_hints`, returned as the list of hints it appends. -/
def get_bind_pat_hints (config : InlayHintsConfig) (pat : NodeData)
    (ancestors : List NodeData) : List InlayHint :=
  if !config.type_hints then [] else
  match pat.patTy with
  | none => []
  | some ty =>
    if should_not_display_type_hint pat.patText ty ancestors then []
    else
      [⟨pat.range, InlayKind.TypeHint,
        (hint_iterator config ty).getD (ty.display config.max_length)⟩]

/-- The node kinds for which `ast::Expr::cast` succeeds. -/
def isExprKind : NKind → Bool
  | NKind.recordExpr => true
  | NKind.pathExpr => true
  | NKind.callExpr => true
  | NKind.methodCallExpr => true
  | NKind.ifExpr => true
  | NKind.whileExpr => true
  | NKind.forExpr => true
  | NKind.otherExpr => true
  | _ => false

/-- The hints one visited node contributes in `inlay_hints`: the chaining
detector when the node is an expression, then the `match_ast!` dispatch to
the parameter or the binding detector.  `ancestorsSelf` is the node's
`ancestors()` chain (the node itself first). -/
def nodeHints (config : InlayHintsConfig) (d : NodeData)
    (ancestorsSelf : List NodeData) : List InlayHint :=
  (if isExprKind d.kind then get_chaining_hints config d else [])
    ++ (match d.kind with
        | NKind.callExpr => get_param_name_hints config d
        | NKind.methodCallExpr => get_param_name_hints config d
        | NKind.identPat => get_bind_pat_hints config d ancestorsSelf
        | _ => [])

/-- The contribution of one traversal entry `(node, strict ancestors)`. -/
def contrib (config : InlayHintsConfig) (n : Node) (anc : List NodeData) : List InlayHint :=
  nodeHints config n.data (n.data :: anc)

/-- Accumulate the contributions of a list of traversal entries, in order. -/
def hintsOfEntries (config : InlayHintsConfig)
    (entries : List (Node × List NodeData)) : List InlayHint :=
  (entries.map (fun p => contrib config p.1 p.2)).flatten

/-- The hints of the whole subtree rooted at `n`, ancestors `anc`. -/
def hintsSub (config : InlayHintsConfig) (n : Node) (anc : List NodeData) : List InlayHint :=
  hintsOfEntries config (preN n anc)

/-- Source `inlay_hints`: walk the file's syntax tree once in pre-order and let
each node's applicable detectors append their hints. -/
def inlay_hints (config : InlayHintsConfig) (file : Node) : List InlayHint :=
  hintsSub config file []

/-! ## Specification variants (for comparison against the source) -/

/-- The claim's reading of the §4.4 underscore stripping: exactly ONE
leading underscore is removed (so `__x` becomes `_x`). -/
def stripOneUnderscore : Str → Str
  | '_' :: rest => rest
  | s => s

/-- Source `is_argument_similar_to_param_name` as the claim describes it, with the
argument text stripped of exactly one leading underscore. -/
def is_argument_similar_to_param_name_specOne (argument : Arg) (param_name : Str) : Bool :=
  if is_enum_name_similar_to_param_name argument param_name then true
  else
    match get_string_representation argument with
    | none => false
    | some repr =>
      let argument_string := stripOneUnderscore repr
      param_name.isPrefixOf argument_string || param_name.isSuffixOf argument_string

/-- Source `should_show_param_name_hint` as the claim describes it: every
comparison uses the parameter name (and the callee name, and the argument
text) with exactly one leading underscore stripped. -/
def should_show_param_name_hint_specOne (callable : CallableM) (param_name0 : Str)
    (param_num : Nat) (argument : Arg) : Bool :=
  let param_name := stripOneUnderscore param_name0
  let fn_name : Option Str := fnNameOf callable
  if param_name.isEmpty
      || some param_name == fn_name.map stripOneUnderscore
      || is_argument_similar_to_param_name_specOne argument param_name
      || is_param_name_similar_to_fn_name param_name param_num fn_name
      || ("ra_fixture".toList).isPrefixOf param_name
  then false
  else !(callable.nParams == 1 && is_obvious_param param_name)

/-! ## Concrete instances used by witnesses and counterexamples -/

/-- A resolved, known type named `B` (displayed as `B`). -/
def wChainTy : TyM := TyM.mk false false none none (fun _ => ['B']) none false none

/-- A method-call expression followed by a line break and a dot: a chaining
point. -/
def wChainExpr : NodeData :=
  { range := ⟨10, 25⟩, kind := NKind.methodCallExpr,
    followTokens := [⟨TokenKind.whitespace, ['\n', ' ']⟩, ⟨TokenKind.dot, ['.']⟩],
    exprTy := some wChainTy }

/-- A nameless two-parameter callable (a closure). -/
def wC6Callable : CallableM := ⟨[], CallableKindM.closure, 2⟩

/-- A plain argument expression with text `z`. -/
def wC6Arg : Arg := Arg.otherArg ⟨0, 1⟩ ['z'] none

/-- A one-parameter callable (a closure) with parameter `qq`. -/
def wC5Callable : CallableM :=
  ⟨[some (ParamSrcM.pat (PatM.identPat (some ['q', 'q'])))], CallableKindM.closure, 1⟩

/-- The callee type of `wC5Expr`, resolving to `wC5Callable`. -/
def wC5CalleeTy : TyM := TyM.mk false false none none (fun _ => []) (some wC5Callable) false none

/-- One literal argument `7`. -/
def wC5Args : List Arg := [Arg.otherArg ⟨3, 4⟩ ['7'] none]

/-- A call expression with one argument whose callee is `wC5Callable`. -/
def wC5Expr : NodeData :=
  { range := ⟨0, 5⟩, kind := NKind.callExpr, argList := some wC5Args,
    calleeTy := some (some wC5CalleeTy) }

/-- A parameter source without a plain-identifier name (a destructuring
pattern). -/
def wC10P0 : Option ParamSrcM := some (ParamSrcM.pat PatM.otherPat)

/-- Argument `u`. -/
def wC10ArgA : Arg := Arg.otherArg ⟨1, 2⟩ ['u'] none

/-- Argument `v`. -/
def wC10ArgB : Arg := Arg.otherArg ⟨4, 5⟩ ['v'] none

/-- An enum type with variants `None` and `Some` (the `Option` enum). -/
def wC2Ty : TyM :=
  TyM.mk false false
    (some (AdtM.enum ("Option".toList) [("None".toList), ("Some".toList)] none))
    none (fun _ => ("Option<Test>".toList)) none false none

/-- A binding pattern `test` of type `Option`, inside a match arm: its name
collides with no variant. -/
def cxPat : NodeData :=
  { range := ⟨30, 34⟩, kind := NKind.identPat, patTy := some wC2Ty,
    patText := "test".toList }

/-- A binding pattern `Some` of type `Option`: its name collides with the
variant `Some`. -/
def wC2Pat : NodeData :=
  { range := ⟨1, 5⟩, kind := NKind.identPat, patTy := some wC2Ty,
    patText := "Some".toList }

/-- A match-arm ancestor node. -/
def wC2Arm : NodeData := { range := ⟨0, 40⟩, kind := NKind.matchArm }

/-- A featureless node (no detector applies). -/
def wC9Bare : NodeData := { range := ⟨0, 0⟩, kind := NKind.otherNode }

/-- A call expression whose callee cannot be resolved. -/
def wC9Call : NodeData := { range := ⟨0, 1⟩, kind := NKind.callExpr, argList := some [] }

/-- A chaining point whose type does not resolve. -/
def wC9Expr : NodeData :=
  { range := ⟨0, 1⟩, kind := NKind.otherExpr,
    followTokens := [⟨TokenKind.whitespace, ['\n']⟩, ⟨TokenKind.dot, ['.']⟩] }

/-- A binding pattern whose type does not resolve. -/
def wC9PatNode : NodeData := { range := ⟨0, 1⟩, kind := NKind.identPat }

/-- The semantic model's truncating renderer respects its budget (modelled
from the spec: `display_truncated` of `hir`, which is not under `src/`,
"renders a type to bounded-length text"). -/
def TyDisplayBounded (ty : TyM) : Prop := ∀ n, (ty.display (some n)).length ≤ n

/-- A type whose renderer — and the renderer of its normalized `Iterator`
item type, when it has one — respects the budget. -/
def TyOk (ty : TyM) : Prop :=
  TyDisplayBounded ty ∧ ∀ t, ty.iterItemNormalized = some t → TyDisplayBounded t

/-- Every type the traversal can render (an expression type or a pattern
type of some visited node) respects the budget. -/
def TreeTysOk (t : Node) : Prop :=
  ∀ e ∈ preN t [], (∀ ty, e.1.data.exprTy = some ty → TyOk ty) ∧
    (∀ ty, e.1.data.patTy = some ty → TyOk ty)

/-- A one-parameter closure with the ten-character parameter `values_xyz`. -/
def cxC3Callable : CallableM :=
  ⟨[some (ParamSrcM.pat (PatM.identPat (some ("values_xyz".toList))))],
   CallableKindM.closure, 1⟩

/-- The callee type resolving to `cxC3Callable`. -/
def cxC3CalleeTy : TyM :=
  TyM.mk false false none none (fun _ => []) (some cxC3Callable) false none

/-- A call with one literal argument whose callee is `cxC3Callable`. -/
def cxC3Call : NodeData :=
  { range := ⟨0, 12⟩, kind := NKind.callExpr,
    argList := some [Arg.otherArg ⟨5, 6⟩ ['9'] none],
    calleeTy := some (some cxC3CalleeTy) }

/-- The one-node file holding that call. -/
def cxC3Tree : Node := Node.mk cxC3Call []

/-- A type whose renderer emits at most `min 2 n` characters at budget
`n`. -/
def wC3Ty : TyM :=
  TyM.mk false false none none
    (fun o => match o with
      | some n => List.replicate (min 2 n) 'X'
      | none => ['X']) none false none

/-- A binding `y` of type `wC3Ty` with no suppressing context. -/
def wC3Pat : NodeData :=
  { range := ⟨0, 2⟩, kind := NKind.identPat, patTy := some wC3Ty, patText := ['y'] }

/-- The one-node file holding that binding. -/
def wC3Tree : Node := Node.mk wC3Pat []

/-! ## Theorems -/

/-- C1: for every expression node with chaining hints enabled, a
`ChainingHint` over the expression's full text range is emitted if and only
if: the sibling tokens following it — after dropping whitespace tokens with
no line break and all comment tokens — begin with a newline-containing
whitespace token followed by a dot token; the expression's static type
resolves and is not unknown; the expression is not a record/struct-literal
expression; and it is not a bare path expression whose type is a zero-field
struct. -/
theorem chaining_hint_iff (config : InlayHintsConfig) (expr : NodeData)
    (hc : config.chaining_hints = true) :
    (∃ h, get_chaining_hints config expr = [h] ∧ h.range = expr.range ∧
        h.kind = InlayKind.ChainingHint)
    ↔ ((∃ t1 t2 rest, chainingFilteredTokens expr = t1 :: t2 :: rest ∧
          t1.kind = TokenKind.whitespace ∧ t1.text.contains '\n' = true ∧
          t2.kind = TokenKind.dot)
        ∧ (∃ ty, expr.exprTy = some ty ∧ ty.isUnknown = false
            ∧ (expr.kind = NKind.pathExpr →
                ∀ name fields krate, ty.asAdt = some (AdtM.struct name fields krate) →
                  fields ≠ []))
        ∧ expr.kind ≠ NKind.recordExpr) := by
  unfold get_chaining_hints
  rw [hc]
  simp only [Bool.not_true, Bool.false_eq_true, if_false]
  by_cases hrec : expr.kind = NKind.recordExpr
  · rw [if_pos (by simp [hrec])]
    constructor
    · rintro ⟨h, hcontra, -, -⟩
      exact absurd hcontra (by simp)
    · rintro ⟨-, -, hne⟩
      exact absurd hrec hne
  · rw [if_neg (by simp [hrec])]
    cases hts : chainingFilteredTokens expr with
    | nil =>
      constructor
      · rintro ⟨h, hcontra, -, -⟩
        exact absurd hcontra (by simp)
      · rintro ⟨⟨t1, t2, rest, habs, -⟩, -, -⟩
        exact absurd habs (by simp)
    | cons t1 ts2 =>
      cases ts2 with
      | nil =>
        constructor
        · rintro ⟨h, hcontra, -, -⟩
          exact absurd hcontra (by simp)
        · rintro ⟨⟨t1x, t2x, rest, habs, -⟩, -, -⟩
          exact absurd habs (by simp)
      | cons t2 rest =>
        simp only []
        by_cases hcond : (t1.kind == TokenKind.whitespace && t2.kind == TokenKind.dot) = true
        · rw [if_pos hcond]
          rw [Bool.and_eq_true, beq_iff_eq, beq_iff_eq] at hcond
          obtain ⟨hk1, hk2⟩ := hcond
          have ht1mem : t1 ∈ chainingFilteredTokens expr := by
            rw [hts]; exact List.mem_cons_self _ _
          have hnl : t1.text.contains '\n' = true := by
            unfold chainingFilteredTokens at ht1mem
            have hp := List.of_mem_filter ht1mem
            rw [hk1] at hp
            exact hp
          cases hty : expr.exprTy with
          | none =>
            constructor
            · rintro ⟨h, hcontra, -, -⟩
              exact absurd hcontra (by simp)
            · rintro ⟨-, ⟨ty, habs, -⟩, -⟩
              exact absurd habs (by simp)
          | some ty =>
            simp only []
            by_cases hunk : ty.isUnknown = true
            · rw [if_pos hunk]
              constructor
              · rintro ⟨h, hcontra, -, -⟩
                exact absurd hcontra (by simp)
              · rintro ⟨-, ⟨ty2, hty2, hunk2, -⟩, -⟩
                rw [Option.some_inj] at hty2
                subst hty2
                rw [hunk] at hunk2
                exact absurd hunk2 (by simp)
            · rw [if_neg hunk]
              rw [Bool.not_eq_true] at hunk
              by_cases hz : (expr.kind == NKind.pathExpr &&
                  (match ty.asAdt with
                   | some (AdtM.struct _ fields _) => fields.isEmpty
                   | _ => false)) = true
              · rw [if_pos hz]
                rw [Bool.and_eq_true, beq_iff_eq] at hz
                obtain ⟨hp, hmatch⟩ := hz
                constructor
                · rintro ⟨h, hcontra, -, -⟩
                  exact absurd hcontra (by simp)
                · rintro ⟨-, ⟨ty2, hty2, -, himp⟩, -⟩
                  rw [Option.some_inj] at hty2
                  subst hty2
                  cases ha : ty.asAdt with
                  | none => rw [ha] at hmatch; exact absurd hmatch (by simp)
                  | some adt =>
                    cases adt with
                    | struct name fields krate =>
                      rw [ha] at hmatch
                      simp only [List.isEmpty_iff] at hmatch
                      exact absurd hmatch (himp hp name fields krate ha)
                    | enum name variants krate =>
                      rw [ha] at hmatch; exact absurd hmatch (by simp)
                    | union name krate =>
                      rw [ha] at hmatch; exact absurd hmatch (by simp)
              · rw [if_neg hz]
                constructor
                · rintro -
                  refine ⟨⟨t1, t2, rest, rfl, hk1, hnl, hk2⟩, ⟨ty, rfl, hunk, ?_⟩, hrec⟩
                  intro hp name fields krate ha hfe
                  apply hz
                  rw [Bool.and_eq_true, beq_iff_eq]
                  exact ⟨hp, by rw [ha, hfe]; rfl⟩
                · rintro -
                  exact ⟨_, rfl, rfl, rfl⟩
        · rw [if_neg hcond]
          constructor
          · rintro ⟨h, hcontra, -, -⟩
            exact absurd hcontra (by simp)
          · rintro ⟨⟨t1x, t2x, restx, htsx, hk1x, -, hk2x⟩, -, -⟩
            injection htsx with e1 e2
            injection e2 with e2 e3
            subst e1; subst e2
            exact absurd (by rw [Bool.and_eq_true, beq_iff_eq, beq_iff_eq]; exact ⟨hk1x, hk2x⟩) hcond

/-- Witness for `chaining_hint_iff`: a concrete chaining point where the
hint is emitted. -/
theorem chaining_hint_iff_witness :
    ∃ h, get_chaining_hints ⟨true, true, true, none⟩ wChainExpr = [h] ∧
      h.range = wChainExpr.range ∧ h.kind = InlayKind.ChainingHint :=
  (chaining_hint_iff ⟨true, true, true, none⟩ wChainExpr rfl).mpr
    ⟨⟨⟨TokenKind.whitespace, ['\n', ' ']⟩, ⟨TokenKind.dot, ['.']⟩, [], rfl, rfl, rfl, rfl⟩,
     ⟨wChainTy, rfl, rfl, fun hp => absurd hp (by decide)⟩,
     by decide⟩

/-- C6 counterexample: for the parameter name `__`, the source strips ALL
leading underscores (reaching the empty name, hence suppression), while the
claim's one-underscore stripping would leave `_` and show the hint. -/
theorem underscore_strip_counterexample :
    should_show_param_name_hint wC6Callable ('_' :: '_' :: []) 1 wC6Arg = false ∧
    should_show_param_name_hint_specOne wC6Callable ('_' :: '_' :: []) 1 wC6Arg = true := by
  decide

/-- C6 (amended): every suppression comparison uses the parameter name with
ALL leading underscores stripped (`trim_start_matches('_')`), so prefixing
one more leading underscore to a parameter name never changes the
decision. -/
theorem param_name_strip_all_underscores (callable : CallableM) (name : Str)
    (param_num : Nat) (argument : Arg) :
    should_show_param_name_hint callable ('_' :: name) param_num argument =
      should_show_param_name_hint callable name param_num argument := rfl

/-- C7: when none of the other suppression disjuncts fires, the candidate
parameter hint is suppressed if and only if the callable has exactly one
parameter and the underscore-stripped name is a single character or one of
`predicate`, `value`, `pat`, `rhs`, `other`. -/
theorem obvious_param_rule_iff (callable : CallableM) (param_name0 : Str)
    (param_num : Nat) (argument : Arg)
    (h1 : ((param_name0.dropWhile (fun c => c == '_')).isEmpty) = false)
    (h2 : (some (param_name0.dropWhile (fun c => c == '_')) ==
        (fnNameOf callable).map (fun s => s.dropWhile (fun c => c == '_'))) = false)
    (h3 : is_argument_similar_to_param_name argument
        (param_name0.dropWhile (fun c => c == '_')) = false)
    (h4 : is_param_name_similar_to_fn_name (param_name0.dropWhile (fun c => c == '_'))
        param_num (fnNameOf callable) = false)
    (h5 : (("ra_fixture".toList).isPrefixOf
        (param_name0.dropWhile (fun c => c == '_'))) = false) :
    (should_show_param_name_hint callable param_name0 param_num argument = false
      ↔ (callable.nParams = 1 ∧
          ((param_name0.dropWhile (fun c => c == '_')).length = 1
            ∨ param_name0.dropWhile (fun c => c == '_') ∈
                [("predicate".toList), ("value".toList), ("pat".toList),
                 ("rhs".toList), ("other".toList)]))) := by
  unfold should_show_param_name_hint
  simp only [h1, h2, h3, h4, h5, Bool.or_self, Bool.or_false, Bool.false_or,
    Bool.false_eq_true, if_false, Bool.not_eq_false', Bool.and_eq_true, beq_iff_eq]
  unfold is_obvious_param
  simp only [Bool.or_eq_true, beq_iff_eq, List.mem_cons, List.mem_singleton,
    List.not_mem_nil, or_false]
  tauto

/-- Witness for `obvious_param_rule_iff`: the one-parameter callable with
parameter name `value` has its hint suppressed. -/
theorem obvious_param_rule_iff_witness :
    should_show_param_name_hint ⟨[], CallableKindM.closure, 1⟩ ("value".toList) 0
      (Arg.otherArg ⟨0, 1⟩ ['z'] none) = false :=
  (obvious_param_rule_iff ⟨[], CallableKindM.closure, 1⟩ ("value".toList) 0
      (Arg.otherArg ⟨0, 1⟩ ['z'] none) (by decide) (by decide) (by decide) (by decide)
      (by decide)).mpr ⟨rfl, by decide⟩

/-- Every member of `(ps.zip bs).filterMap f` originates from a common
index valid in both zipped lists. -/
theorem mem_filterMap_zip {α β γ : Type} (f : α × β → Option γ)
    (ps : List α) (bs : List β) (y : γ)
    (h : y ∈ (ps.zip bs).filterMap f) :
    ∃ (i : Nat) (p : α) (b : β), ps[i]? = some p ∧ bs[i]? = some b ∧ f (p, b) = some y := by
  induction ps generalizing bs with
  | nil => simp at h
  | cons p ps ih =>
    cases bs with
    | nil => simp at h
    | cons b bs =>
      rw [List.zip_cons_cons, List.filterMap_cons] at h
      cases hf : f (p, b) with
      | none =>
        rw [hf] at h
        obtain ⟨i, p2, b2, h1, h2, h3⟩ := ih bs h
        exact ⟨i + 1, p2, b2, by simpa using h1, by simpa using h2, h3⟩
      | some z =>
        rw [hf] at h
        rcases List.mem_cons.mp h with hz | hz
        · subst hz
          exact ⟨0, p, b, by simp, by simp, hf⟩
        · obtain ⟨i, p2, b2, h1, h2, h3⟩ := ih bs hz
          exact ⟨i + 1, p2, b2, by simpa using h1, by simpa using h2, h3⟩

/-- C5: parameter hints pair parameters with arguments purely positionally,
truncating at the shorter sequence — every emitted hint arises from one
index valid in both the parameter list and the argument list, carrying that
parameter's name over that argument's range. -/
theorem param_hints_positional (config : InlayHintsConfig) (expr : NodeData)
    (args : List Arg) (callable : CallableM)
    (hargs : argsOf expr = some args) (hcall : get_callable expr = some callable) :
    ∀ h ∈ get_param_name_hints config expr, ∃ (i : Nat) (p : Option ParamSrcM) (a : Arg),
      callable.params[i]? = some p ∧ args[i]? = some a ∧
      paramSrcName p = some h.label ∧ h.range = a.range ∧
      h.kind = InlayKind.ParameterHint := by
  intro h hmem
  unfold get_param_name_hints at hmem
  rw [hargs, hcall] at hmem
  cases hflag : config.parameter_hints with
  | false => rw [hflag] at hmem; simp at hmem
  | true =>
    rw [hflag] at hmem
    simp only [Bool.not_true, Bool.false_eq_true, if_false] at hmem
    unfold param_hints_core at hmem
    rw [List.mem_map] at hmem
    obtain ⟨x, hx, hfx⟩ := hmem
    rw [List.mem_filter] at hx
    obtain ⟨hxe, -⟩ := hx
    have hsurv := List.mem_enum_iff_getElem?.mp hxe
    have hsurv2 : x.2 ∈ (callable.params.zip args).filterMap (fun pa =>
        match paramSrcName pa.1 with
        | none => none
        | some param_name => some (param_name, pa.2)) := List.getElem?_mem hsurv
    obtain ⟨i, p, a, h1, h2, h3⟩ := mem_filterMap_zip _ _ _ _ hsurv2
    have h3b : (match paramSrcName p with
        | none => none
        | some param_name => some (param_name, a)) = some x.2 := h3
    cases hname : paramSrcName p with
    | none =>
      rw [hname] at h3b
      exact absurd h3b (by simp)
    | some nm =>
      rw [hname] at h3b
      rw [Option.some_inj] at h3b
      subst hfx
      refine ⟨i, p, a, h1, h2, ?_, ?_, rfl⟩
      · rw [hname, ← h3b]
      · rw [← h3b]

/-- Witness for `param_hints_positional`: the single hint of a concrete
one-argument call traces back to index 0. -/
theorem param_hints_positional_witness :
    ∃ (i : Nat) (p : Option ParamSrcM) (a : Arg),
      wC5Callable.params[i]? = some p ∧ wC5Args[i]? = some a ∧
      paramSrcName p = some (InlayHint.label ⟨⟨3, 4⟩, InlayKind.ParameterHint, ['q', 'q']⟩) ∧
      InlayHint.range ⟨⟨3, 4⟩, InlayKind.ParameterHint, ['q', 'q']⟩ = a.range ∧
      InlayHint.kind ⟨⟨3, 4⟩, InlayKind.ParameterHint, ['q', 'q']⟩ = InlayKind.ParameterHint :=
  param_hints_positional ⟨true, true, true, none⟩ wC5Expr wC5Args wC5Callable rfl rfl
    ⟨⟨3, 4⟩, InlayKind.ParameterHint, ['q', 'q']⟩ (by decide)

/-- A parameter without a plain-identifier name consumes its positional
argument: the head pair drops out of the pipeline and the remaining
parameters pair with the remaining arguments. -/
theorem param_hints_core_skip (k : CallableKindM) (np : Nat) (p0 : Option ParamSrcM)
    (ps : List (Option ParamSrcM)) (a : Arg) (bs : List Arg)
    (h0 : paramSrcName p0 = none) :
    param_hints_core ⟨p0 :: ps, k, np⟩ (a :: bs) = param_hints_core ⟨ps, k, np⟩ bs := by
  unfold param_hints_core
  simp only [List.zip_cons_cons, List.filterMap_cons, h0]
  rfl

/-- C10: parameters are paired with arguments before unnamed parameters are
dropped — the argument paired with a skipped parameter receives no hint and
is not re-paired — and the position fed to the suppression heuristics is
the index among the surviving named pairs: after a skipped first parameter,
the next named parameter is judged at position 0, not at its declaration
position 1. -/
theorem param_skip_and_survivor_index :
    (∀ (k : CallableKindM) (np : Nat) (p0 : Option ParamSrcM)
        (ps : List (Option ParamSrcM)) (a : Arg) (bs : List Arg),
        paramSrcName p0 = none →
        param_hints_core ⟨p0 :: ps, k, np⟩ (a :: bs) = param_hints_core ⟨ps, k, np⟩ bs)
    ∧ (∀ (k : CallableKindM) (np : Nat) (p0 : Option ParamSrcM) (n : Str) (a b : Arg),
        paramSrcName p0 = none →
        param_hints_core ⟨[p0, some (ParamSrcM.pat (PatM.identPat (some n)))], k, np⟩ [a, b] =
          if should_show_param_name_hint
              ⟨[p0, some (ParamSrcM.pat (PatM.identPat (some n)))], k, np⟩ n 0 b
          then [⟨b.range, InlayKind.ParameterHint, n⟩] else []) := by
  constructor
  · exact param_hints_core_skip
  · intro k np p0 n a b h0
    rw [param_hints_core_skip k np p0 _ a _ h0]
    have hcongr : should_show_param_name_hint
        ⟨[p0, some (ParamSrcM.pat (PatM.identPat (some n)))], k, np⟩ n 0 b =
        should_show_param_name_hint
          ⟨[some (ParamSrcM.pat (PatM.identPat (some n)))], k, np⟩ n 0 b := rfl
    rw [hcongr]
    cases hs : should_show_param_name_hint
        ⟨[some (ParamSrcM.pat (PatM.identPat (some n)))], k, np⟩ n 0 b <;>
      simp [param_hints_core, List.enum, List.enumFrom, paramSrcName, hs]

/-- Witness for `param_skip_and_survivor_index`: with declaration
`fn do_thing((destructured), thing)` and call `do_thing(u, v)`, the skipped
first parameter consumes `u`, and `thing` — judged at survivor position 0
against the callee name `do_thing` — is suppressed, so no hint at all is
emitted. -/
theorem param_skip_and_survivor_index_witness :
    param_hints_core
        ⟨wC10P0 :: [some (ParamSrcM.pat (PatM.identPat (some ("thing".toList))))],
         CallableKindM.function ("do_thing".toList), 2⟩ [wC10ArgA, wC10ArgB] =
      param_hints_core
        ⟨[some (ParamSrcM.pat (PatM.identPat (some ("thing".toList))))],
         CallableKindM.function ("do_thing".toList), 2⟩ [wC10ArgB] ∧
    param_hints_core
        ⟨[wC10P0, some (ParamSrcM.pat (PatM.identPat (some ("thing".toList))))],
         CallableKindM.function ("do_thing".toList), 2⟩ [wC10ArgA, wC10ArgB] = [] :=
  ⟨param_skip_and_survivor_index.1 (CallableKindM.function ("do_thing".toList)) 2 wC10P0
      [some (ParamSrcM.pat (PatM.identPat (some ("thing".toList))))] wC10ArgA [wC10ArgB] rfl,
   by
    rw [param_skip_and_survivor_index.2 (CallableKindM.function ("do_thing".toList)) 2 wC10P0
      ("thing".toList) wC10ArgA wC10ArgB rfl]
    decide⟩

/-- Ancestors on which no `match_ast!` arm fires are skipped by the
ancestor walk. -/
theorem ancestorLoop_append_none (pt : Str) (ty : TyM) (pre l : List NodeData)
    (hpre : ∀ a ∈ pre, ancestorVerdict pt ty a = none) :
    ancestorLoop pt ty (pre ++ l) = ancestorLoop pt ty l := by
  induction pre with
  | nil => rfl
  | cons a pre ih =>
    rw [List.cons_append]
    simp only [ancestorLoop, hpre a (List.mem_cons_self _ _)]
    exact ih (fun x hx => hpre x (List.mem_cons_of_mem _ hx))

/-- C2 counterexample: in a match arm, a binding named `test` bound to the
enum `Option` (variants `None`, `Some`) collides with no variant name, yet
the type hint IS emitted — the source suppresses exactly when the name
collides with a variant, the opposite polarity of the claimed rule (the
in-repo test `match_arm_list` expects the hint on `test => ()`). -/
theorem match_arm_rule_counterexample :
    pat_is_enum_variant cxPat.patText wC2Ty = false ∧
    get_bind_pat_hints ⟨true, true, true, none⟩ cxPat [cxPat, wC2Arm] ≠ [] := by
  decide

/-- C2 (amended): for a binding whose nearest matching ancestor context is a
match arm, the type hint is SUPPRESSED exactly when the bound type is
unknown, or is a zero-field struct named like the binding, or the binding
name collides with one of the bound enum type's variant names; for an
if-let / while-let context the last disjunct additionally requires the
condition to carry a pattern.  (The claim stated the collision rule with
the opposite polarity.) -/
theorem bind_pat_context_rule (config : InlayHintsConfig) (d : NodeData) (ty : TyM)
    (pre : List NodeData) (ctx : NodeData) (rest : List NodeData)
    (ht : config.type_hints = true) (hty : d.patTy = some ty)
    (hpre : ∀ a ∈ pre, ancestorVerdict d.patText ty a = none) :
    (ctx.kind = NKind.matchArm →
      (get_bind_pat_hints config d (pre ++ ctx :: rest) = []
        ↔ (ty.isUnknown = true ∨ zeroFieldStructNameEq d.patText ty = true
            ∨ pat_is_enum_variant d.patText ty = true)))
    ∧ ((ctx.kind = NKind.ifExpr ∨ ctx.kind = NKind.whileExpr) →
      (get_bind_pat_hints config d (pre ++ ctx :: rest) = []
        ↔ (ty.isUnknown = true ∨ zeroFieldStructNameEq d.patText ty = true
            ∨ (ctx.condPat = true ∧ pat_is_enum_variant d.patText ty = true)))) := by
  have hv : ∀ (v : Bool), ancestorVerdict d.patText ty ctx = some v →
      (get_bind_pat_hints config d (pre ++ ctx :: rest) = []
        ↔ (ty.isUnknown = true ∨ zeroFieldStructNameEq d.patText ty = true
            ∨ v = true)) := by
    intro v hvv
    unfold get_bind_pat_hints
    rw [ht, hty]
    simp only [Bool.not_true, Bool.false_eq_true, if_false]
    unfold should_not_display_type_hint
    rw [ancestorLoop_append_none d.patText ty pre (ctx :: rest) hpre]
    simp only [ancestorLoop, hvv]
    cases hu : ty.isUnknown with
    | true => simp
    | false =>
      simp only [Bool.false_eq_true, if_false, false_or]
      cases hz : zeroFieldStructNameEq d.patText ty with
      | true => simp
      | false =>
        simp only [Bool.false_eq_true, if_false, false_or]
        cases v with
        | true => simp
        | false => simp
  constructor
  · intro hctx
    have harm : ancestorVerdict d.patText ty ctx = some (pat_is_enum_variant d.patText ty) := by
      unfold ancestorVerdict
      rw [hctx]
    exact hv _ harm
  · intro hctx
    rcases hctx with hif | hwhile
    · have harm : ancestorVerdict d.patText ty ctx =
          some (ctx.condPat && pat_is_enum_variant d.patText ty) := by
        unfold ancestorVerdict
        rw [hif]
      simpa [Bool.and_eq_true] using hv _ harm
    · have harm : ancestorVerdict d.patText ty ctx =
          some (ctx.condPat && pat_is_enum_variant d.patText ty) := by
        unfold ancestorVerdict
        rw [hwhile]
      simpa [Bool.and_eq_true] using hv _ harm

/-- Witness for `bind_pat_context_rule`: the binding `Some` bound to the
`Option` enum inside a match arm collides with variant `Some`, so its type
hint is suppressed. -/
theorem bind_pat_context_rule_witness :
    get_bind_pat_hints ⟨true, true, true, none⟩ wC2Pat [wC2Pat, wC2Arm] = [] :=
  ((bind_pat_context_rule ⟨true, true, true, none⟩ wC2Pat wC2Ty [wC2Pat] wC2Arm []
      rfl rfl (by decide)).1 rfl).mpr (Or.inr (Or.inr (by decide)))

/-- C9: the computation is total by construction and fault-isolated per
candidate: an absent argument list, an unresolvable callee, an unresolved
expression type or an unresolved pattern type each silence only that
node's own detector, and a node whose contribution is empty can be removed
from the traversal without changing any other hint. -/
theorem fault_isolation :
    (∀ (config : InlayHintsConfig) (expr : NodeData),
        argsOf expr = none → get_param_name_hints config expr = [])
    ∧ (∀ (config : InlayHintsConfig) (expr : NodeData),
        get_callable expr = none → get_param_name_hints config expr = [])
    ∧ (∀ (config : InlayHintsConfig) (expr : NodeData),
        expr.exprTy = none → get_chaining_hints config expr = [])
    ∧ (∀ (config : InlayHintsConfig) (pat : NodeData) (anc : List NodeData),
        pat.patTy = none → get_bind_pat_hints config pat anc = [])
    ∧ (∀ (config : InlayHintsConfig) (l1 l2 : List (Node × List NodeData))
        (e : Node × List NodeData), contrib config e.1 e.2 = [] →
        hintsOfEntries config (l1 ++ e :: l2) = hintsOfEntries config (l1 ++ l2)) := by
  refine ⟨?_, ?_, ?_, ?_, ?_⟩
  · intro config expr h
    unfold get_param_name_hints
    rw [h]
    cases hflag : config.parameter_hints <;> simp
  · intro config expr h
    unfold get_param_name_hints
    rw [h]
    cases hargs : argsOf expr <;> cases hflag : config.parameter_hints <;> simp
  · intro config expr h
    unfold get_chaining_hints
    rw [h]
    repeat' split
    all_goals first | rfl | simp_all
  · intro config pat anc h
    unfold get_bind_pat_hints
    rw [h]
    cases hflag : config.type_hints <;> simp
  · intro config l1 l2 e h
    unfold hintsOfEntries
    simp [h]

/-- Witness for `fault_isolation` at concrete degenerate nodes. -/
theorem fault_isolation_witness :
    get_param_name_hints ⟨true, true, true, none⟩ wC9Bare = [] ∧
    get_param_name_hints ⟨true, true, true, none⟩ wC9Call = [] ∧
    get_chaining_hints ⟨true, true, true, none⟩ wC9Expr = [] ∧
    get_bind_pat_hints ⟨true, true, true, none⟩ wC9PatNode [] = [] ∧
    hintsOfEntries ⟨true, true, true, none⟩ ([] ++ (Node.mk wC9Bare [], []) :: []) =
      hintsOfEntries ⟨true, true, true, none⟩ ([] ++ []) :=
  ⟨fault_isolation.1 _ wC9Bare rfl, fault_isolation.2.1 _ wC9Call rfl,
   fault_isolation.2.2.1 _ wC9Expr rfl, fault_isolation.2.2.2.1 _ wC9PatNode [] rfl,
   fault_isolation.2.2.2.2 _ [] [] (Node.mk wC9Bare [], []) rfl⟩

/-- Every chaining hint carries `ChainingHint`. -/
theorem get_chaining_hints_kind (config : InlayHintsConfig) (d : NodeData) :
    ∀ h ∈ get_chaining_hints config d, h.kind = InlayKind.ChainingHint := by
  unfold get_chaining_hints
  repeat' split
  all_goals simp

/-- Every parameter hint carries `ParameterHint`. -/
theorem get_param_name_hints_kind (config : InlayHintsConfig) (d : NodeData) :
    ∀ h ∈ get_param_name_hints config d, h.kind = InlayKind.ParameterHint := by
  unfold get_param_name_hints
  repeat' split
  · simp
  · simp
  · simp
  · intro h hm
    unfold param_hints_core at hm
    rw [List.mem_map] at hm
    obtain ⟨x, -, rfl⟩ := hm
    rfl

/-- Every binding type hint carries `TypeHint`. -/
theorem get_bind_pat_hints_kind (config : InlayHintsConfig) (d : NodeData)
    (anc : List NodeData) :
    ∀ h ∈ get_bind_pat_hints config d anc, h.kind = InlayKind.TypeHint := by
  unfold get_bind_pat_hints
  repeat' split
  all_goals simp

/-- The chaining detector reads only its own flag and the length budget. -/
theorem get_chaining_hints_congr (c1 c2 : InlayHintsConfig) (d : NodeData)
    (h1 : c1.chaining_hints = c2.chaining_hints) (h2 : c1.max_length = c2.max_length) :
    get_chaining_hints c1 d = get_chaining_hints c2 d := by
  cases c1 with
  | mk t1 p1 ch1 m1 =>
    cases c2 with
    | mk t2 p2 ch2 m2 =>
      simp only [] at h1 h2
      subst h1
      subst h2
      rfl

/-- The parameter detector reads only its own flag. -/
theorem get_param_name_hints_congr (c1 c2 : InlayHintsConfig) (d : NodeData)
    (h1 : c1.parameter_hints = c2.parameter_hints) :
    get_param_name_hints c1 d = get_param_name_hints c2 d := by
  cases c1 with
  | mk t1 p1 ch1 m1 =>
    cases c2 with
    | mk t2 p2 ch2 m2 =>
      simp only [] at h1
      subst h1
      rfl

/-- The binding detector reads only its own flag and the length budget. -/
theorem get_bind_pat_hints_congr (c1 c2 : InlayHintsConfig) (d : NodeData)
    (anc : List NodeData)
    (h1 : c1.type_hints = c2.type_hints) (h2 : c1.max_length = c2.max_length) :
    get_bind_pat_hints c1 d anc = get_bind_pat_hints c2 d anc := by
  cases c1 with
  | mk t1 p1 ch1 m1 =>
    cases c2 with
    | mk t2 p2 ch2 m2 =>
      simp only [] at h1 h2
      subst h1
      subst h2
      rfl

/-- A disabled chaining flag silences the chaining detector. -/
theorem get_chaining_hints_off (config : InlayHintsConfig) (d : NodeData)
    (h : config.chaining_hints = false) : get_chaining_hints config d = [] := by
  unfold get_chaining_hints
  rw [h]
  rfl

/-- A disabled parameter flag silences the parameter detector. -/
theorem get_param_name_hints_off (config : InlayHintsConfig) (d : NodeData)
    (h : config.parameter_hints = false) : get_param_name_hints config d = [] := by
  unfold get_param_name_hints
  rw [h]
  rfl

/-- A disabled type flag silences the binding detector. -/
theorem get_bind_pat_hints_off (config : InlayHintsConfig) (d : NodeData)
    (anc : List NodeData)
    (h : config.type_hints = false) : get_bind_pat_hints config d anc = [] := by
  unfold get_bind_pat_hints
  rw [h]
  rfl

/-- Lift a per-node filtering relation through the whole traversal. -/
theorem hintsOfEntries_filter (c1 c2 : InlayHintsConfig) (p : InlayHint → Bool)
    (hnode : ∀ d anc, nodeHints c1 d anc = (nodeHints c2 d anc).filter p) :
    ∀ entries, hintsOfEntries c1 entries = (hintsOfEntries c2 entries).filter p := by
  intro entries
  induction entries with
  | nil => rfl
  | cons e es ih =>
    unfold hintsOfEntries at ih ⊢
    unfold contrib at ih ⊢
    simp only [List.map_cons, List.flatten_cons, List.filter_append]
    rw [hnode, ih]

/-- Filtering for a different kind keeps a single-kind hint list intact. -/
theorem filter_ne_kind_of_kind (l : List InlayHint) (k k2 : InlayKind) (hk : k ≠ k2)
    (hl : ∀ h ∈ l, h.kind = k) : l.filter (fun h => !(h.kind == k2)) = l :=
  List.filter_eq_self.mpr (fun a ha => by rw [hl a ha]; simp [hk])

/-- Filtering for the own kind empties a single-kind hint list. -/
theorem filter_kind_nil (l : List InlayHint) (k : InlayKind)
    (hl : ∀ h ∈ l, h.kind = k) : l.filter (fun h => !(h.kind == k)) = [] := by
  rw [List.filter_eq_nil_iff]
  intro a ha
  rw [hl a ha]
  simp

/-- Disabling type hints removes exactly the type hints of a node. -/
theorem nodeHints_type_off (config : InlayHintsConfig) (d : NodeData)
    (anc : List NodeData) :
    nodeHints { config with type_hints := false } d anc
      = (nodeHints config d anc).filter (fun h => !(h.kind == InlayKind.TypeHint)) := by
  unfold nodeHints
  rw [List.filter_append]
  have e1 : get_chaining_hints { config with type_hints := false } d
      = get_chaining_hints config d := get_chaining_hints_congr _ _ d rfl rfl
  have e2 : get_param_name_hints { config with type_hints := false } d
      = get_param_name_hints config d := get_param_name_hints_congr _ _ d rfl
  congr 1
  · cases hek : isExprKind d.kind
    · simp
    · simp only [if_true]
      rw [e1]
      exact (filter_ne_kind_of_kind _ InlayKind.ChainingHint _ (by decide)
        (get_chaining_hints_kind config d)).symm
  · cases hk : d.kind <;> simp only [] <;>
      first
        | rfl
        | (rw [e2]
           exact (filter_ne_kind_of_kind _ InlayKind.ParameterHint _ (by decide)
             (get_param_name_hints_kind config d)).symm)
        | (rw [get_bind_pat_hints_off _ _ _ rfl]
           exact (filter_kind_nil _ InlayKind.TypeHint
             (get_bind_pat_hints_kind config d anc)).symm)

/-- Disabling parameter hints removes exactly the parameter hints of a
node. -/
theorem nodeHints_parameter_off (config : InlayHintsConfig) (d : NodeData)
    (anc : List NodeData) :
    nodeHints { config with parameter_hints := false } d anc
      = (nodeHints config d anc).filter (fun h => !(h.kind == InlayKind.ParameterHint)) := by
  unfold nodeHints
  rw [List.filter_append]
  have e1 : get_chaining_hints { config with parameter_hints := false } d
      = get_chaining_hints config d := get_chaining_hints_congr _ _ d rfl rfl
  have e3 : get_bind_pat_hints { config with parameter_hints := false } d anc
      = get_bind_pat_hints config d anc := get_bind_pat_hints_congr _ _ d anc rfl rfl
  congr 1
  · cases hek : isExprKind d.kind
    · simp
    · simp only [if_true]
      rw [e1]
      exact (filter_ne_kind_of_kind _ InlayKind.ChainingHint _ (by decide)
        (get_chaining_hints_kind config d)).symm
  · cases hk : d.kind <;> simp only [] <;>
      first
        | rfl
        | (rw [get_param_name_hints_off _ _ rfl]
           exact (filter_kind_nil _ InlayKind.ParameterHint
             (get_param_name_hints_kind config d)).symm)
        | (rw [e3]
           exact (filter_ne_kind_of_kind _ InlayKind.TypeHint _ (by decide)
             (get_bind_pat_hints_kind config d anc)).symm)

/-- Disabling chaining hints removes exactly the chaining hints of a
node. -/
theorem nodeHints_chaining_off (config : InlayHintsConfig) (d : NodeData)
    (anc : List NodeData) :
    nodeHints { config with chaining_hints := false } d anc
      = (nodeHints config d anc).filter (fun h => !(h.kind == InlayKind.ChainingHint)) := by
  unfold nodeHints
  rw [List.filter_append]
  have e2 : get_param_name_hints { config with chaining_hints := false } d
      = get_param_name_hints config d := get_param_name_hints_congr _ _ d rfl
  have e3 : get_bind_pat_hints { config with chaining_hints := false } d anc
      = get_bind_pat_hints config d anc := get_bind_pat_hints_congr _ _ d anc rfl rfl
  congr 1
  · cases hek : isExprKind d.kind
    · simp
    · simp only [if_true]
      rw [get_chaining_hints_off _ _ rfl]
      exact (filter_kind_nil _ InlayKind.ChainingHint (get_chaining_hints_kind config d)).symm
  · cases hk : d.kind <;> simp only [] <;>
      first
        | rfl
        | (rw [e2]
           exact (filter_ne_kind_of_kind _ InlayKind.ParameterHint _ (by decide)
             (get_param_name_hints_kind config d)).symm)
        | (rw [e3]
           exact (filter_ne_kind_of_kind _ InlayKind.TypeHint _ (by decide)
             (get_bind_pat_hints_kind config d anc)).symm)

/-- C8: toggling one hint kind off yields exactly the enabled output with
the hints of that kind removed — the other kinds keep their content and
relative order. -/
theorem config_independence (config : InlayHintsConfig) (t : Node) :
    (inlay_hints { config with type_hints := false } t
      = (inlay_hints config t).filter (fun h => !(h.kind == InlayKind.TypeHint)))
    ∧ (inlay_hints { config with parameter_hints := false } t
      = (inlay_hints config t).filter (fun h => !(h.kind == InlayKind.ParameterHint)))
    ∧ (inlay_hints { config with chaining_hints := false } t
      = (inlay_hints config t).filter (fun h => !(h.kind == InlayKind.ChainingHint))) := by
  refine ⟨?_, ?_, ?_⟩
  · unfold inlay_hints hintsSub
    exact hintsOfEntries_filter _ _ _ (nodeHints_type_off config) _
  · unfold inlay_hints hintsSub
    exact hintsOfEntries_filter _ _ _ (nodeHints_parameter_off config) _
  · unfold inlay_hints hintsSub
    exact hintsOfEntries_filter _ _ _ (nodeHints_chaining_off config) _

mutual
/-- A traversal entry of a subtree occupies a contiguous block: splitting
`preN` around any entry's own subtree traversal. -/
theorem mem_preN_split (n : Node) (anc : List NodeData) (b : Node) (ancb : List NodeData)
    (h : (b, ancb) ∈ preN n anc) :
    ∃ l1 l2, preN n anc = l1 ++ preN b ancb ++ l2 := by
  cases n with
  | mk d kids =>
    unfold preN at h
    rcases List.mem_cons.mp h with he | he
    · obtain ⟨hb, hanc⟩ := Prod.mk.injEq .. |>.mp he
      subst hb
      subst hanc
      exact ⟨[], [], by simp⟩
    · obtain ⟨l1, l2, hsplit⟩ := mem_preL_split kids (d :: anc) b ancb he
      refine ⟨(Node.mk d kids, anc) :: l1, l2, ?_⟩
      show (Node.mk d kids, anc) :: preL kids (d :: anc)
        = ((Node.mk d kids, anc) :: l1) ++ preN b ancb ++ l2
      rw [hsplit]
      simp [List.append_assoc]

/-- The forest version of `mem_preN_split`. -/
theorem mem_preL_split (ns : List Node) (anc : List NodeData) (b : Node) (ancb : List NodeData)
    (h : (b, ancb) ∈ preL ns anc) :
    ∃ l1 l2, preL ns anc = l1 ++ preN b ancb ++ l2 := by
  cases ns with
  | nil =>
    unfold preL at h
    exact absurd h (by simp)
  | cons k ks =>
    unfold preL at h
    rcases List.mem_append.mp h with he | he
    · obtain ⟨l1, l2, hsplit⟩ := mem_preN_split k anc b ancb he
      refine ⟨l1, l2 ++ preL ks anc, ?_⟩
      show preN k anc ++ preL ks anc = l1 ++ preN b ancb ++ (l2 ++ preL ks anc)
      rw [hsplit]
      simp [List.append_assoc]
    · obtain ⟨l1, l2, hsplit⟩ := mem_preL_split ks anc b ancb he
      refine ⟨preN k anc ++ l1, l2, ?_⟩
      show preN k anc ++ preL ks anc = (preN k anc ++ l1) ++ preN b ancb ++ l2
      rw [hsplit]
      simp [List.append_assoc]
end

/-- C4: the result list follows pre-order traversal order — whenever one
visited node is a strict syntactic ancestor of another, all hints the
ancestor node produces precede all hints the descendant produces in the
output; in particular the chaining hint over a larger enclosing sub-range
precedes the chaining hint over a contained sub-range. -/
theorem hint_order_ancestor_first (config : InlayHintsConfig) (root a : Node)
    (anca : List NodeData) (b : Node) (ancb : List NodeData)
    (ha : (a, anca) ∈ preN root [])
    (hb : (b, ancb) ∈ preL a.children (a.data :: anca)) :
    ∃ l1 l2 l3, inlay_hints config root
      = l1 ++ contrib config a anca ++ l2 ++ contrib config b ancb ++ l3 := by
  obtain ⟨L1, L2, hsplit1⟩ := mem_preN_split root [] a anca ha
  cases a with
  | mk da kas =>
    obtain ⟨M1, M2, hsplit2⟩ := mem_preL_split kas (da :: anca) b ancb hb
    cases b with
    | mk db kbs =>
      refine ⟨hintsOfEntries config L1, hintsOfEntries config M1,
        hintsOfEntries config (preL kbs (db :: ancb)) ++ hintsOfEntries config M2
          ++ hintsOfEntries config L2, ?_⟩
      unfold inlay_hints hintsSub
      rw [hsplit1]
      have ha2 : preN (Node.mk da kas) anca
          = (Node.mk da kas, anca) :: preL kas (da :: anca) := rfl
      rw [ha2, hsplit2]
      have hb2 : preN (Node.mk db kbs) ancb
          = (Node.mk db kbs, ancb) :: preL kbs (db :: ancb) := rfl
      rw [hb2]
      unfold hintsOfEntries
      simp only [List.map_append, List.map_cons, List.flatten_append, List.flatten_cons]
      simp [List.append_assoc]

/-- Witness for `hint_order_ancestor_first`: a two-node tree whose child is
a chaining point. -/
theorem hint_order_ancestor_first_witness :
    ∃ l1 l2 l3,
      inlay_hints ⟨true, true, true, none⟩ (Node.mk wC9Bare [Node.mk wChainExpr []])
        = l1 ++ contrib ⟨true, true, true, none⟩ (Node.mk wC9Bare [Node.mk wChainExpr []]) []
          ++ l2 ++ contrib ⟨true, true, true, none⟩ (Node.mk wChainExpr []) [wC9Bare] ++ l3 :=
  hint_order_ancestor_first ⟨true, true, true, none⟩
    (Node.mk wC9Bare [Node.mk wChainExpr []]) (Node.mk wC9Bare [Node.mk wChainExpr []]) []
    (Node.mk wChainExpr []) [wC9Bare] (by simp [preN])
    (by simp [preL, preN, Node.data, Node.children])

/-- C3 counterexample: with `max_length = 1`, the engine still emits the
ten-character parameter hint `values_xyz` — parameter-hint labels are raw
parameter names and are never truncated. -/
theorem label_length_counterexample :
    (⟨true, true, true, some 1⟩ : InlayHintsConfig).max_length = some 1 ∧
    ¬ (∀ h ∈ inlay_hints ⟨true, true, true, some 1⟩ cxC3Tree, h.label.length ≤ 1) := by
  decide

/-- A successful `hint_iterator` label is the fixed wrapper around the item
type rendered at the reduced budget. -/
theorem hint_iterator_shape (config : InlayHintsConfig) (ty : TyM) (s : Str)
    (h : hint_iterator config ty = some s) :
    ∃ t, ty.iterItemNormalized = some t ∧
      s = ("impl Iterator<Item = ".toList)
        ++ t.display (config.max_length.map (fun len =>
            len - (("impl Iterator<Item = ".toList).length + (">".toList).length)))
        ++ (">".toList) := by
  unfold hint_iterator at h
  repeat' split at h
  all_goals
    first
      | (rw [Option.some_inj] at h
         exact ⟨_, by assumption, h.symm⟩)
      | exact absurd h (by simp)

/-- Every chaining hint's label is the iterator shortening, or else the
expression type rendered at the configured budget. -/
theorem chaining_label_shape (config : InlayHintsConfig) (d : NodeData) :
    ∀ h ∈ get_chaining_hints config d, ∃ ty, d.exprTy = some ty ∧
      h.label = (hint_iterator config ty).getD (ty.display config.max_length) := by
  intro h hm
  unfold get_chaining_hints at hm
  repeat' split at hm
  all_goals
    first
      | (rw [List.mem_singleton] at hm
         subst hm
         exact ⟨_, by assumption, rfl⟩)
      | exact absurd hm (List.not_mem_nil _)

/-- Every binding type hint's label is the iterator shortening, or else the
pattern type rendered at the configured budget. -/
theorem bind_label_shape (config : InlayHintsConfig) (d : NodeData)
    (anc : List NodeData) :
    ∀ h ∈ get_bind_pat_hints config d anc, ∃ ty, d.patTy = some ty ∧
      h.label = (hint_iterator config ty).getD (ty.display config.max_length) := by
  intro h hm
  unfold get_bind_pat_hints at hm
  repeat' split at hm
  all_goals
    first
      | (rw [List.mem_singleton] at hm
         subst hm
         exact ⟨_, by assumption, rfl⟩)
      | exact absurd hm (List.not_mem_nil _)

/-- A rendered label (iterator-shortened or plain) respects the budget `L`
whenever `L` is at least the wrapper length 22. -/
theorem label_bound (config : InlayHintsConfig) (ty : TyM) (L : Nat)
    (hL : config.max_length = some L) (h22 : 22 ≤ L)
    (hb : TyDisplayBounded ty)
    (hbi : ∀ t, ty.iterItemNormalized = some t → TyDisplayBounded t) :
    ((hint_iterator config ty).getD (ty.display config.max_length)).length ≤ L := by
  generalize hit : hint_iterator config ty = r
  cases r with
  | none =>
    rw [Option.getD_none, hL]
    exact hb L
  | some s =>
    obtain ⟨t, htn, hs⟩ := hint_iterator_shape config ty s hit
    rw [Option.getD_some]
    subst hs
    rw [hL]
    have hms : Option.map (fun len =>
          len - (("impl Iterator<Item = ".toList).length + (">".toList).length)) (some L)
        = some (L - (("impl Iterator<Item = ".toList).length + (">".toList).length)) := rfl
    rw [hms, List.length_append, List.length_append]
    have hinner := hbi t htn
      (L - (("impl Iterator<Item = ".toList).length + (">".toList).length))
    have h21 : ("impl Iterator<Item = ".toList).length = 21 := by decide
    have h1 : (">".toList : Str).length = 1 := by decide
    rw [h21, h1] at hinner ⊢
    omega

/-- C3 (amended): when a maximum length `L ≥ 22` is configured and the
semantic model's renderer is budget-respecting, every type hint and every
chaining hint label has length at most `L`; parameter hint labels are the
raw parameter names and are not length-limited. -/
theorem label_length_amended (config : InlayHintsConfig) (t : Node) (L : Nat)
    (hL : config.max_length = some L) (h22 : 22 ≤ L) (hB : TreeTysOk t) :
    ∀ h ∈ inlay_hints config t, h.kind ≠ InlayKind.ParameterHint →
      h.label.length ≤ L := by
  intro h hm hk
  unfold inlay_hints hintsSub hintsOfEntries at hm
  rw [List.mem_flatten] at hm
  obtain ⟨l, hl, hhl⟩ := hm
  rw [List.mem_map] at hl
  obtain ⟨e, he, hfe⟩ := hl
  subst hfe
  unfold contrib nodeHints at hhl
  rcases List.mem_append.mp hhl with hch | hrest
  · have hch2 : h ∈ get_chaining_hints config e.1.data := by
      by_cases hek : isExprKind e.1.data.kind
      · rwa [if_pos hek] at hch
      · rw [if_neg hek] at hch
        exact absurd hch (by simp)
    obtain ⟨ty, hty, hlab⟩ := chaining_label_shape config e.1.data h hch2
    have hok := (hB e he).1 ty hty
    rw [hlab]
    exact label_bound config ty L hL h22 hok.1 hok.2
  · split at hrest
    · exact absurd (get_param_name_hints_kind config _ h hrest) hk
    · exact absurd (get_param_name_hints_kind config _ h hrest) hk
    · obtain ⟨ty, hty, hlab⟩ := bind_label_shape config _ _ h hrest
      have hok := (hB e he).2 ty hty
      rw [hlab]
      exact label_bound config ty L hL h22 hok.1 hok.2
    · exact absurd hrest (by simp)

/-- Witness for `label_length_amended`: the concrete type hint emitted for
`wC3Tree` (label `XX`) respects the budget 30. -/
theorem label_length_amended_witness :
    (InlayHint.mk ⟨0, 2⟩ InlayKind.TypeHint ['X', 'X']).label.length ≤ 30 :=
  label_length_amended ⟨true, true, true, some 30⟩ wC3Tree 30 rfl (by norm_num)
    (by
      intro e he
      have he2 : e = (wC3Tree, []) := by
        have : preN wC3Tree [] = [(wC3Tree, [])] := rfl
        rw [this, List.mem_singleton] at he
        exact he
      subst he2
      constructor
      · intro ty hty
        have h0 : (wC3Tree, ([] : List NodeData)).1.data.exprTy = none := rfl
        rw [h0] at hty
        exact absurd hty (by simp)
      · intro ty hty
        have h0 : (wC3Tree, ([] : List NodeData)).1.data.patTy = some wC3Ty := rfl
        rw [h0, Option.some_inj] at hty
        subst hty
        constructor
        · intro n
          show (List.replicate (min 2 n) 'X').length ≤ n
          rw [List.length_replicate]
          exact Nat.min_le_right _ _
        · intro t ht
          exact absurd ht (by simp [wC3Ty, TyM.iterItemNormalized]))
    (InlayHint.mk ⟨0, 2⟩ InlayKind.TypeHint ['X', 'X']) (by decide) (by decide)

end InlayHints
